import Mathlib

/-
Verification development for the argument-parsing engine of
src/src/struct/Command.js (Command#parse and its helpers).

The JavaScript code is shallowly embedded as pure Lean functions:
  - JS runtime values that flow through the probe / default / resolver
    boundary are modelled by the inductive JSVal (with truthiness);
  - the mutable `processed` object is modelled by an association list
    threaded through the evaluator (setKey preserves insertion order
    and overwrites in place, like property assignment on a JS object);
  - the sequential async evaluation is modelled by explicit sequential
    state passing; the feedback channel (message.channel.send) and the
    Argument Resolver invocations are modelled as output traces;
  - the cancellation sentinel (Symbols.COMMAND_CANCELLED thrown from
    parse) is modelled by the Except.error case of the parse outcome.
-/

namespace Akairo

/-- A JavaScript runtime value as far as the parser observes it:
null / undefined / booleans / numbers (NaN separate) / strings. -/
inductive JSVal where
  | vnull
  | vundef
  | vbool (b : Bool)
  | vnum (n : Int)
  | vnan
  | vstr (s : String)
deriving DecidableEq, Repr

/-- JS truthiness of a value. -/
def JSVal.truthy : JSVal → Bool
  | .vnull => false
  | .vundef => false
  | .vbool b => b
  | .vnum n => n != 0
  | .vnan => false
  | .vstr s => s != ""

/-- A value stored in the result mapping: either a primitive resolver
output or the array produced by SEPARATE matching. -/
inductive Value where
  | prim (v : JSVal)
  | arr (vs : List JSVal)
deriving DecidableEq, Repr

/-- The result mapping `processed`: an association list keeping JS
object insertion order. -/
abbrev Results := List (String × Value)

/-- Property assignment processed[k] = v on a JS object: overwrite in
place if the key exists, append otherwise. -/
def setKey (m : Results) (k : String) (v : Value) : Results :=
  if m.any (fun p => p.1 == k) then
    m.map (fun p => if p.1 == k then (k, v) else p)
  else m ++ [(k, v)]

/-- Property read processed[k]. -/
def getKey (m : Results) (k : String) : Option Value :=
  (m.find? (fun p => p.1 == k)).map (fun p => p.2)

/-- One invocation of the Argument Resolver (arg.process): the raw
string handed over and the result mapping visible at call time. -/
structure CallRec where
  argId : String
  raw : String
  seen : Results
deriving DecidableEq, Repr

def dummyRec : CallRec := ⟨"", "", []⟩

/-- The match modes of Constants.ArgumentMatches (PREFIX is called PFX
here because Lean reserves that word). -/
inductive MatchType where
  | WORD
  | REST
  | SEPARATE
  | PFX
  | FLAG
  | TEXT
  | CONTENT
  | NONE
deriving DecidableEq, Repr

/-- [ArgumentMatches.WORD, REST, SEPARATE].includes(matchType). -/
def positional : MatchType → Bool
  | .WORD => true
  | .REST => true
  | .SEPARATE => true
  | _ => false

/-- arg.prefix: a single string or an array of strings. -/
inductive PrefixVal where
  | single (s : String)
  | multi (ss : List String)
deriving DecidableEq, Repr

/-- The prefix values of the spec, in declaration order. -/
def pfxList : PrefixVal → List String
  | .single s => [s]
  | .multi ss => ss

/-- arg.match: a static mode or a function of (message, processed). -/
inductive MatchSpec (Ctx : Type) where
  | stat (m : MatchType)
  | dyn (f : Ctx → Results → MatchType)

/-- One Argument Spec (the fields of an Argument consulted by parse).
Fields keep the source names except where Lean reserves the word:
match becomes matchv, prefix becomes pfxv, default becomes dflt. -/
structure ArgSpec (Ctx : Type) where
  id : String
  matchv : MatchSpec Ctx
  index : Option Nat
  limit : Nat
  pfxv : PrefixVal
  allow : Ctx → Results → Bool
  dflt : Ctx → Results → JSVal
  process : String → Ctx → Results → JSVal

/-- One element of this.args: a plain spec, an array of specs, or a
cancellation function. -/
inductive Slot (Ctx : Type) where
  | single (a : ArgSpec Ctx)
  | group (as' : List (ArgSpec Ctx))
  | probe (f : Ctx → Results → JSVal)

/-- this.split: the built-in strategies, a custom function (returning
the words and the isQuoted property set on them), or a plain string
separator (the content.split(this.split) fallback). -/
inductive SplitMode (Ctx : Type) where
  | PLAIN
  | SPLIT
  | QUOTED
  | STICKY
  | NONE
  | FUNC (f : String → Ctx → List String × Bool)
  | STR (sep : String)

/-- this.split === ArgumentSplits.QUOTED || this.split === ArgumentSplits.STICKY. -/
def isQuotedMode {Ctx : Type} : SplitMode Ctx → Bool
  | .QUOTED => true
  | .STICKY => true
  | _ => false

/-- this.split === ArgumentSplits.SPLIT. -/
def isSplitMode {Ctx : Type} : SplitMode Ctx → Bool
  | .SPLIT => true
  | _ => false

/-- The fields of a Command consulted by parse. -/
structure Command (Ctx : Type) where
  args : List (Slot Ctx)
  split : SplitMode Ctx

/-- JS String.prototype.trim: remove leading and trailing whitespace
(rendered over the character list so that the kernel can evaluate it). -/
def jsTrim (s : String) : String :=
  String.mk (((s.toList.dropWhile Char.isWhitespace).reverse.dropWhile
    Char.isWhitespace).reverse)

/-- JS String.prototype.toLowerCase (ASCII, over the character list). -/
def jsToLower (s : String) : String :=
  String.mk (s.toList.map Char.toLower)

/-- JS String.prototype.startsWith. -/
def jsStartsWith (s pat : String) : Bool :=
  pat.toList.isPrefixOf s.toList

/-- JS String.prototype.endsWith. -/
def jsEndsWith (s pat : String) : Bool :=
  pat.toList.reverse.isPrefixOf s.toList.reverse

/-- Index of the first occurrence of sep in cs, if any. -/
def firstIndexOf (cs sep : List Char) : Option Nat :=
  (List.range (cs.length + 1)).find? (fun i => sep.isPrefixOf (cs.drop i))

/-- Fuel-driven splitter on a non-empty separator; fuel at least the
length of the input plus one makes it exact. -/
def splitChFuel (sep : List Char) : Nat → List Char → List (List Char)
  | 0, cs => [cs]
  | fuel + 1, cs =>
    match firstIndexOf cs sep with
    | none => [cs]
    | some i => cs.take i :: splitChFuel sep fuel (cs.drop (i + sep.length))

/-- JS String.prototype.split with a string separator (an empty
separator splits into single characters). -/
def jsSplit (s sep : String) : List String :=
  if sep.toList = [] then s.toList.map (fun c => String.mk [c])
  else (splitChFuel sep.toList (s.toList.length + 1) s.toList).map (fun l => String.mk l)

/-- The JS regex test /^"[^]+"$/.test(t) on an already-trimmed string:
a leading double quote, at least one character, a closing double quote. -/
def quotedForm (t : String) : Bool :=
  jsStartsWith t "\"" && jsEndsWith t "\"" && decide (3 ≤ t.length)

/-- JS String.prototype.replace with a string pattern and empty
replacement: remove the first occurrence of pat, if any. -/
def listReplaceFirst (s pat : List Char) : List Char :=
  match (List.range (s.length + 1)).find? (fun i => pat.isPrefixOf (s.drop i)) with
  | some i => s.take i ++ s.drop (i + pat.length)
  | none => s

/-- s.replace(pat, ""), first occurrence only. -/
def replaceFirst (s pat : String) : String :=
  String.mk (listReplaceFirst s.toList pat.toList)

/-- Take at most one leading whitespace character (the \s? tail of the
tokenizer regexes). -/
def oneWs : List Char → List Char × List Char
  | [] => ([], [])
  | c :: cs => if c.isWhitespace then ([c], cs) else ([], c :: cs)

/-- c.match(/\S+\s?/g) || []: fuel-driven scan; fuel at least the
length of the input makes it exact. -/
def plainTokF : Nat → List Char → List (List Char)
  | 0, _ => []
  | _, [] => []
  | fuel + 1, c :: cs =>
    if c.isWhitespace then plainTokF fuel cs
    else
      let run := (c :: cs).takeWhile (fun x => !x.isWhitespace)
      let rest := (c :: cs).dropWhile (fun x => !x.isWhitespace)
      let ws := oneWs rest
      (run ++ ws.1) :: plainTokF fuel ws.2

/-- c.match(/"[^]*?"\s?|\S+\s?|"/g) || []. -/
def quotedTokF : Nat → List Char → List (List Char)
  | 0, _ => []
  | _, [] => []
  | fuel + 1, c :: cs =>
    if c.isWhitespace then quotedTokF fuel cs
    else if c = '"' && cs.contains '"' then
      let inner := cs.takeWhile (fun x => x ≠ '"')
      let rest := (cs.dropWhile (fun x => x ≠ '"')).drop 1
      let ws := oneWs rest
      ('"' :: (inner ++ '"' :: ws.1)) :: quotedTokF fuel ws.2
    else
      let run := (c :: cs).takeWhile (fun x => !x.isWhitespace)
      let rest := (c :: cs).dropWhile (fun x => !x.isWhitespace)
      let ws := oneWs rest
      (run ++ ws.1) :: quotedTokF fuel ws.2

/-- c.match(/[^\s"]*?"[^]*?"\s?|\S+\s?|"/g) || []: the first
alternative fires when a double quote is reached before any whitespace
and a closing double quote follows it. -/
def stickyTokF : Nat → List Char → List (List Char)
  | 0, _ => []
  | _, [] => []
  | fuel + 1, c :: cs =>
    if c.isWhitespace then stickyTokF fuel cs
    else
      let pre := (c :: cs).takeWhile (fun x => x ≠ '"' && !x.isWhitespace)
      let atQ := (c :: cs).dropWhile (fun x => x ≠ '"' && !x.isWhitespace)
      if atQ.head? = some '"' ∧ (atQ.drop 1).contains '"' then
        let afterOpen := atQ.drop 1
        let inner := afterOpen.takeWhile (fun x => x ≠ '"')
        let rest := (afterOpen.dropWhile (fun x => x ≠ '"')).drop 1
        let ws := oneWs rest
        (pre ++ '"' :: (inner ++ '"' :: ws.1)) :: stickyTokF fuel ws.2
      else
        let run := (c :: cs).takeWhile (fun x => !x.isWhitespace)
        let rest := (c :: cs).dropWhile (fun x => !x.isWhitespace)
        let ws := oneWs rest
        (run ++ ws.1) :: stickyTokF fuel ws.2

def charsToStrings (ls : List (List Char)) : List String :=
  ls.map (fun l => String.mk l)

/-- Command#_splitText: dispatch on this.split, also returning the
words.isQuoted property (false unless a custom splitter sets it). -/
def splitText {Ctx : Type} (sm : SplitMode Ctx) (content : String) (ctx : Ctx) :
    List String × Bool :=
  match sm with
  | .FUNC f => f content ctx
  | .PLAIN => (charsToStrings (plainTokF content.toList.length content.toList), false)
  | .SPLIT => (jsSplit content " ", false)
  | .QUOTED => (charsToStrings (quotedTokF content.toList.length content.toList), false)
  | .STICKY => (charsToStrings (stickyTokF content.toList.length content.toList), false)
  | .NONE => ([content], false)
  | .STR sep => (jsSplit content sep, false)

/-- The pushPrefix closure of Command#_getPrefixes: one lowercase
descriptor per prefix value of a static PREFIX or FLAG mode spec. -/
def pushPfx {Ctx : Type} (a : ArgSpec Ctx) : List (String × Bool) :=
  match a.matchv with
  | .stat .PFX => (pfxList a.pfxv).map (fun p => (jsToLower p, false))
  | .stat .FLAG => (pfxList a.pfxv).map (fun p => (jsToLower p, true))
  | _ => []

/-- Command#_getPrefixes: walk this.args, flattening arrays; a
cancellation function has no match property so contributes nothing. -/
def getPrefixes {Ctx : Type} : List (Slot Ctx) → List (String × Bool)
  | [] => []
  | .group as' :: rest => as'.flatMap pushPfx ++ getPrefixes rest
  | .single a :: rest => pushPfx a ++ getPrefixes rest
  | .probe _ :: rest => getPrefixes rest

/-- The predicate of the noPrefixWords filter in Command#parse. -/
def keepWord (pfxs : List (String × Bool)) (w : String) : Bool :=
  let w := jsTrim w
  !(pfxs.any (fun p =>
    if !p.2 then jsStartsWith (jsToLower w) p.1 else jsToLower w == p.1))

/-- The per-call environment of Command#parse: the trigger context,
the raw content, the token pool, the filtered pool, the isQuoted flag
and whether the split strategy is SPLIT (the REST/TEXT joiner test). -/
structure Env (Ctx : Type) where
  ctx : Ctx
  content : String
  words : List String
  npw : List String
  isQuoted : Bool
  joinSplit : Bool

/-- arg.match resolved: static value or dynamic function call. -/
def resolvedMode {Ctx : Type} (a : ArgSpec Ctx) (ctx : Ctx) (r : Results) : MatchType :=
  match a.matchv with
  | .stat m => m
  | .dyn f => f ctx r

/-- noPrefixWords.slice(index, index + arg.limit) for REST and
SEPARATE, with index = arg.index != null ? arg.index : wordIndex. -/
def windowOf {Ctx : Type} (E : Env Ctx) (a : ArgSpec Ctx) (wi : Nat) : List String :=
  ((E.npw.drop (a.index.getD wi)).take a.limit)

/-- The inner loop of the PREFIX matcher: first prefix value, in
declaration order, that the trimmed lowercased word starts with. -/
def pfxScanWord (ps : List String) (word : String) : Option String :=
  ps.find? (fun p => jsStartsWith word (jsToLower p))

/-- The for (let i = words.length; i--;) scan of the PREFIX matcher,
applied to the reversed token pool: first word (from the end) starting
with some prefix value, together with the value used. -/
def pfxScan (ps : List String) : List String → Option (String × String)
  | [] => none
  | w :: ws =>
    let word := jsToLower (jsTrim w)
    match pfxScanWord ps word with
    | some p => some (p, word)
    | none => pfxScan ps ws

/-- The raw string the PREFIX matcher hands to arg.process: scan, then
wordFound.replace(prefixUsed, "") guarded by both being truthy, then
the conditional trim plus dequote, then wordFound || "". -/
def pfxRaw (pv : PrefixVal) (words : List String) (isQuoted : Bool) : String :=
  match pfxScan (pfxList pv) words.reverse with
  | none => ""
  | some pw =>
    if pw.2 ≠ "" ∧ pw.1 ≠ "" then
      let w1 := replaceFirst pw.2 pw.1
      if isQuoted && quotedForm (jsTrim w1) then ((jsTrim w1).drop 1).dropRight 1
      else w1
    else pw.2

/-- The FLAG matcher scan over the reversed token pool: some word,
trimmed and lowercased, equals some prefix value lowercased. -/
def flagScan (ps : List String) : List String → Bool
  | [] => false
  | w :: ws =>
    let word := jsToLower (jsTrim w)
    if ps.any (fun p => word == jsToLower p) then true else flagScan ps ws

/-- The loop body of the SEPARATE evaluator: processed[arg.id] holds
the live result array (here: the accumulator so far) during each
arg.process call; returns the values produced from this point on, the
final mapping, and the resolver call trace. -/
def sepRun {Ctx : Type} (a : ArgSpec Ctx) (ctx : Ctx) :
    List String → List JSVal → Results → List JSVal × Results × List CallRec
  | [], _, r => ([], r, [])
  | w :: ws, acc, r =>
    let r1 := setKey r a.id (Value.arr acc)
    let v := a.process w ctx r1
    let rec' := sepRun a ctx ws (acc ++ [v]) r1
    (v :: rec'.1, rec'.2.1, ⟨a.id, w, r1⟩ :: rec'.2.2)

/-- Outcome of one step of the process(i) recursion: abort with the
feedback messages sent, or continue with the updated mapping, the
wordIndex increment and the resolver calls made. -/
inductive StepRes where
  | abort (sends : List JSVal)
  | cont (r : Results) (d : Nat) (calls : List CallRec)
deriving DecidableEq, Repr

/-- The parseFuncs dispatch plus the surrounding bookkeeping for one
allowed spec: resolve the match mode, build and run the evaluator with
the current wordIndex, store the result at arg.id, and report the
wordIndex increment for WORD / REST / SEPARATE. -/
def runSpec {Ctx : Type} (E : Env Ctx) (a : ArgSpec Ctx) (r : Results) (wi : Nat) : StepRes :=
  let m := resolvedMode a E.ctx r
  let d := if positional m then 1 else 0
  match m with
  | .WORD =>
    let index := a.index.getD wi
    let w0 := E.npw.getD index ""
    let w := if E.isQuoted && quotedForm (jsTrim w0) then ((jsTrim w0).drop 1).dropRight 1 else w0
    let v := a.process w E.ctx r
    .cont (setKey r a.id (Value.prim v)) d [⟨a.id, w, r⟩]
  | .REST =>
    let index := a.index.getD wi
    let joiner := if E.joinSplit then " " else ""
    let w := String.intercalate joiner ((E.npw.drop index).take a.limit)
    let v := a.process w E.ctx r
    .cont (setKey r a.id (Value.prim v)) d [⟨a.id, w, r⟩]
  | .SEPARATE =>
    let window := windowOf E a wi
    if window.isEmpty then
      let v := a.process "" E.ctx r
      .cont (setKey r a.id (Value.prim v)) d [⟨a.id, "", r⟩]
    else
      let out := sepRun a E.ctx window [] r
      .cont (setKey out.2.1 a.id (Value.arr out.1)) d out.2.2
  | .PFX =>
    let w := pfxRaw a.pfxv E.words E.isQuoted
    let v := a.process w E.ctx r
    .cont (setKey r a.id (Value.prim v)) d [⟨a.id, w, r⟩]
  | .FLAG =>
    let found := flagScan (pfxList a.pfxv) E.words.reverse
    let inverse := !(a.dflt E.ctx r).truthy
    let v := JSVal.vbool (if inverse then found else !found)
    .cont (setKey r a.id (Value.prim v)) d []
  | .TEXT =>
    let index := a.index.getD 0
    let joiner := if E.joinSplit then " " else ""
    let w := String.intercalate joiner ((E.npw.drop index).take a.limit)
    let v := a.process w E.ctx r
    .cont (setKey r a.id (Value.prim v)) d [⟨a.id, w, r⟩]
  | .CONTENT =>
    let index := a.index.getD 0
    let w := String.intercalate " " (((jsSplit E.content " ").drop index).take a.limit)
    let v := a.process w E.ctx r
    .cont (setKey r a.id (Value.prim v)) d [⟨a.id, w, r⟩]
  | .NONE =>
    let v := a.process "" E.ctx r
    .cont (setKey r a.id (Value.prim v)) d [⟨a.id, "", r⟩]

/-- One step of the process(i) recursion of Command#parse: the
cancellation branch (cancel != null && cancel !== false aborts, with a
send when cancel is truthy and not the boolean true), the array branch
(first member whose allow passes), and the plain branch (skip when
allow fails). -/
def stepSlot {Ctx : Type} (E : Env Ctx) : Slot Ctx → Results → Nat → StepRes
  | .probe f, r, _ =>
    let cancel := f E.ctx r
    if cancel ≠ JSVal.vnull ∧ cancel ≠ JSVal.vundef ∧ cancel ≠ JSVal.vbool false then
      if cancel.truthy ∧ cancel ≠ JSVal.vbool true then .abort [cancel]
      else .abort []
    else .cont r 0 []
  | .group as', r, wi =>
    match as'.find? (fun a => a.allow E.ctx r) with
    | none => .cont r 0 []
    | some a => runSpec E a r wi
  | .single a, r, wi =>
    if a.allow E.ctx r then runSpec E a r wi else .cont r 0 []

/-- The process(i) recursion of Command#parse, threading the mapping
and wordIndex through the slots; an abort discards the rest. -/
def processSlots {Ctx : Type} (E : Env Ctx) :
    List (Slot Ctx) → Results → Nat → Except Unit Results × List JSVal × List CallRec
  | [], r, _ => (.ok r, [], [])
  | s :: rest, r, wi =>
    match stepSlot E s r wi with
    | .abort sends => (.error (), sends, [])
    | .cont r' d calls =>
      let o := processSlots E rest r' (wi + d)
      (o.1, o.2.1, calls ++ o.2.2)

/-- The per-call environment built by the body of Command#parse. -/
def envOf {Ctx : Type} (cmd : Command Ctx) (content : String) (ctx : Ctx) : Env Ctx :=
  let wq := splitText cmd.split content ctx
  let isQuoted := isQuotedMode cmd.split || wq.2
  let pfxs := getPrefixes cmd.args
  ⟨ctx, content, wq.1, wq.1.filter (keepWord pfxs), isQuoted, isSplitMode cmd.split⟩

/-- Command#parse: empty args resolve to an empty mapping at once;
otherwise tokenize, filter, and run process(0) with wordIndex 0.
Except.error () is the cancellation sentinel. -/
def parse {Ctx : Type} (cmd : Command Ctx) (content : String) (ctx : Ctx) :
    Except Unit Results × List JSVal × List CallRec :=
  if cmd.args.isEmpty then (.ok [], [], [])
  else processSlots (envOf cmd content ctx) cmd.args [] 0

/-- Two parse calls with the same inputs, made one after the other. -/
def parseTwice {Ctx : Type} (cmd : Command Ctx) (content : String) (ctx : Ctx) :
    (Except Unit Results × List JSVal × List CallRec) ×
    (Except Unit Results × List JSVal × List CallRec) :=
  (parse cmd content ctx, parse cmd content ctx)

/-! Claim-side characterizations (stated from the specification's or the
claims' wording, to be compared with the source-translated functions). -/

/-- The spec whose allow predicate lets the slot participate: none for
a cancellation probe or a fully skipped slot, the first allowed member
of an alternative group, the spec itself when its allow passes. -/
def activeSpec {Ctx : Type} (ctx : Ctx) (s : Slot Ctx) (r : Results) : Option (ArgSpec Ctx) :=
  match s with
  | .probe _ => none
  | .group as' => as'.find? (fun a => a.allow ctx r)
  | .single a => if a.allow ctx r then some a else none

/-- The cursor advance the claim predicts for one slot: 1 when a spec
participates and its resolved mode is WORD, REST or SEPARATE, else 0. -/
def wiDelta {Ctx : Type} (E : Env Ctx) (s : Slot Ctx) (r : Results) : Nat :=
  match activeSpec E.ctx s r with
  | none => 0
  | some a => if positional (resolvedMode a E.ctx r) then 1 else 0

/-- The argument specs of the slot list with alternative groups
flattened, in declaration order. -/
def flattenSpecs {Ctx : Type} : List (Slot Ctx) → List (ArgSpec Ctx)
  | [] => []
  | .group as' :: rest => as' ++ flattenSpecs rest
  | .single a :: rest => a :: flattenSpecs rest
  | .probe _ :: rest => flattenSpecs rest

/-- The descriptor list of the Prefix Extractor contract: one
lowercase value with a flag marker per prefix value of every
PREFIX-mode and FLAG-mode spec, groups flattened. -/
def descriptorsSpec {Ctx : Type} (slots : List (Slot Ctx)) : List (String × Bool) :=
  (flattenSpecs slots).flatMap (fun a =>
    match a.matchv with
    | .stat .PFX => (pfxList a.pfxv).map (fun v => (jsToLower v, false))
    | .stat .FLAG => (pfxList a.pfxv).map (fun v => (jsToLower v, true))
    | _ => [])

/-- The Positional Filter removal test of the claim: the trimmed,
lowercased token starts with a non-flag descriptor value or exactly
equals a flag descriptor value. -/
def removedSpec (ds : List (String × Bool)) (w : String) : Bool :=
  ds.any (fun d =>
    if d.2 then jsToLower (jsTrim w) == d.1 else jsStartsWith (jsToLower (jsTrim w)) d.1)

/-- The FLAG presence test of the claim: some token of the pool,
trimmed and lowercased, equals some prefix value (lowercased). -/
def flagFoundSpec (pv : PrefixVal) (ws : List String) : Bool :=
  ws.any (fun w => (pfxList pv).any (fun p => jsToLower (jsTrim w) == jsToLower p))

/-- The PREFIX hit of the amended claim: last token of the pool whose
trimmed lowercased form starts with some prefix value (lowercased),
values tested in declaration order, paired with the value that won. -/
def pfxHit (ps : List String) (ws : List String) : Option (String × String) :=
  (ws.reverse).findSome? (fun w =>
    (ps.find? (fun p => jsStartsWith (jsToLower (jsTrim w)) (jsToLower p))).map
      (fun p => (p, jsToLower (jsTrim w))))

/-- The raw string of the amended claim: on a hit, remove the first
occurrence of the winning value's original-case form from the trimmed
lowercased token (removing nothing when it does not occur); trim and
remove one layer of surrounding double quotes only when isQuoted and
the trimmed remainder is fully quote-delimited; when the hit token or
the winning value is empty, the trimmed lowercased token is fed
unchanged, with no stripping or dequoting (so the empty string exactly
when the token is empty); with no hit, the empty string is fed. -/
def pfxRawSpec (pv : PrefixVal) (ws : List String) (isQuoted : Bool) : String :=
  match pfxHit (pfxList pv) ws with
  | none => ""
  | some pw =>
    if pw.2 = "" ∨ pw.1 = "" then pw.2
    else
      let w1 := replaceFirst pw.2 pw.1
      if isQuoted && quotedForm (jsTrim w1) then ((jsTrim w1).drop 1).dropRight 1 else w1

/-! Helper lemmas. -/

theorem setKey_setKey (r : Results) (k : String) (v v' : Value) :
    setKey (setKey r k v) k v' = setKey r k v' := by
  by_cases h : r.any (fun p => p.1 == k) = true
  · have h1 : setKey r k v = r.map (fun p => if p.1 == k then (k, v) else p) := by
      unfold setKey; rw [if_pos h]
    have h2 : setKey r k v' = r.map (fun p => if p.1 == k then (k, v') else p) := by
      unfold setKey; rw [if_pos h]
    have hany : (r.map (fun p => if p.1 == k then (k, v) else p)).any
        (fun p => p.1 == k) = true := by
      rw [List.any_map]
      rcases List.any_eq_true.mp h with ⟨p, hp, hpk⟩
      exact List.any_eq_true.mpr ⟨p, hp, by simp [Function.comp, hpk]⟩
    rw [h1, h2]
    unfold setKey
    rw [if_pos hany, List.map_map]
    congr 1
    funext p
    by_cases hp : (p.1 == k) = true
    · simp [Function.comp, hp]
    · simp [Function.comp, hp]
  · have h1 : setKey r k v = r ++ [(k, v)] := by
      unfold setKey; rw [if_neg h]
    have h2 : setKey r k v' = r ++ [(k, v')] := by
      unfold setKey; rw [if_neg h]
    have hall : ∀ p ∈ r, ¬(p.1 == k) = true := by
      intro p hp hpk
      exact h (List.any_eq_true.mpr ⟨p, hp, hpk⟩)
    have hany : (r ++ [(k, v)]).any (fun p => p.1 == k) = true := by
      refine List.any_eq_true.mpr ⟨(k, v), by simp, by simp⟩
    rw [h1, h2]
    unfold setKey
    rw [if_pos hany, List.map_append]
    have hmap : r.map (fun p => if p.1 == k then (k, v') else p) = r := by
      conv_rhs => rw [show r = r.map id from (List.map_id r).symm]
      apply List.map_congr_left
      intro p hp
      simp [hall p hp]
    rw [hmap]
    simp

theorem getKey_map_of_mem (r : Results) (k : String) (v : Value)
    (h : r.any (fun p => p.1 == k) = true) :
    getKey (r.map (fun p => if p.1 == k then (k, v) else p)) k = some v := by
  induction r with
  | nil => simp at h
  | cons p r ih =>
    by_cases hp : p.1 == k
    · simp [getKey, List.find?, hp]
    · have h' : r.any (fun q => q.1 == k) = true := by
        rcases List.any_eq_true.mp h with ⟨q, hq, hqk⟩
        rcases List.mem_cons.mp hq with rfl | hq'
        · exact absurd hqk hp
        · exact List.any_eq_true.mpr ⟨q, hq', hqk⟩
      have := ih h'
      simpa [getKey, List.find?, hp] using this

theorem getKey_append_single (r : Results) (k : String) (v : Value)
    (h : r.any (fun p => p.1 == k) = false) :
    getKey (r ++ [(k, v)]) k = some v := by
  induction r with
  | nil => simp [getKey, List.find?]
  | cons p r ih =>
    have hp : (p.1 == k) = false := by
      cases hpk : (p.1 == k) with
      | false => rfl
      | true => simp [List.any_cons, hpk] at h
    have h' : r.any (fun q => q.1 == k) = false := by
      simp [List.any_cons, hp] at h
      simpa using h
    have := ih h'
    simpa [getKey, List.find?, hp] using this

theorem getKey_setKey (r : Results) (k : String) (v : Value) :
    getKey (setKey r k v) k = some v := by
  unfold setKey
  by_cases h : r.any (fun p => p.1 == k) = true
  · rw [if_pos h]; exact getKey_map_of_mem r k v h
  · rw [if_neg h]
    exact getKey_append_single r k v (Bool.eq_false_iff.mpr h)

theorem flagScan_eq_any (ps : List String) (l : List String) :
    flagScan ps l = l.any (fun w => ps.any (fun p => jsToLower (jsTrim w) == jsToLower p)) := by
  induction l with
  | nil => rfl
  | cons w l ih =>
    by_cases h : ps.any (fun p => jsToLower (jsTrim w) == jsToLower p) = true
    · simp [flagScan, h]
    · have h' := Bool.eq_false_iff.mpr h
      simp [flagScan, h', ih]

theorem any_reverse_eq {α : Type} (l : List α) (p : α → Bool) :
    l.reverse.any p = l.any p := by
  induction l with
  | nil => rfl
  | cons x l ih => simp [List.any_append, ih, Bool.or_comm]

theorem pfxScan_eq_findSome (ps : List String) (l : List String) :
    pfxScan ps l = l.findSome? (fun w =>
      (ps.find? (fun p => jsStartsWith (jsToLower (jsTrim w)) (jsToLower p))).map
        (fun p => (p, jsToLower (jsTrim w)))) := by
  induction l with
  | nil => rfl
  | cons w l ih =>
    simp only [pfxScan, pfxScanWord, List.findSome?]
    cases h : ps.find? (fun p => jsStartsWith (jsToLower (jsTrim w)) (jsToLower p)) with
    | none => simpa [h] using ih
    | some p => simp [h]

theorem sepRun_char {Ctx : Type} (a : ArgSpec Ctx) (ctx : Ctx) :
    ∀ (ws : List String) (acc : List JSVal) (r : Results),
      (sepRun a ctx ws acc r).1.length = ws.length ∧
      (sepRun a ctx ws acc r).2.2.length = ws.length ∧
      (∀ v, setKey (sepRun a ctx ws acc r).2.1 a.id v = setKey r a.id v) ∧
      (∀ k, k < ws.length →
        (sepRun a ctx ws acc r).2.2.getD k dummyRec =
          ⟨a.id, ws.getD k "",
            setKey r a.id (Value.arr (acc ++ (sepRun a ctx ws acc r).1.take k))⟩ ∧
        (sepRun a ctx ws acc r).1.getD k JSVal.vnull =
          a.process (ws.getD k "") ctx
            (setKey r a.id (Value.arr (acc ++ (sepRun a ctx ws acc r).1.take k)))) := by
  intro ws
  induction ws with
  | nil =>
    intro acc r
    refine ⟨rfl, rfl, fun v => rfl, fun k hk => absurd hk (by simp)⟩
  | cons w ws ih =>
    intro acc r
    have hout : sepRun a ctx (w :: ws) acc r =
        (a.process w ctx (setKey r a.id (Value.arr acc)) ::
            (sepRun a ctx ws (acc ++ [a.process w ctx (setKey r a.id (Value.arr acc))])
              (setKey r a.id (Value.arr acc))).1,
          (sepRun a ctx ws (acc ++ [a.process w ctx (setKey r a.id (Value.arr acc))])
              (setKey r a.id (Value.arr acc))).2.1,
          ⟨a.id, w, setKey r a.id (Value.arr acc)⟩ ::
            (sepRun a ctx ws (acc ++ [a.process w ctx (setKey r a.id (Value.arr acc))])
              (setKey r a.id (Value.arr acc))).2.2) := rfl
    set r1 := setKey r a.id (Value.arr acc) with hr1
    set v0 := a.process w ctx r1 with hv0
    obtain ⟨ihlen, ihclen, ihset, ihk⟩ := ih (acc ++ [v0]) r1
    rw [hout]
    refine ⟨by simpa using ihlen, by simpa using ihclen, ?_, ?_⟩
    · intro v
      rw [ihset v, hr1, setKey_setKey]
    · intro k hk
      cases k with
      | zero =>
        constructor
        · simp [List.getD_cons_zero, hr1]
        · simp [List.getD_cons_zero, hv0, hr1]
      | succ k =>
        have hk' : k < ws.length := by simpa using hk
        obtain ⟨ihrec, ihval⟩ := ihk k hk'
        have hseen :
            setKey r1 a.id (Value.arr ((acc ++ [v0]) ++
                (sepRun a ctx ws (acc ++ [v0]) r1).1.take k)) =
            setKey r a.id (Value.arr (acc ++
                (v0 :: (sepRun a ctx ws (acc ++ [v0]) r1).1).take (k + 1))) := by
          rw [hr1, setKey_setKey, List.take_succ_cons, List.append_assoc,
            List.singleton_append]
        constructor
        · rw [List.getD_cons_succ, List.getD_cons_succ, ihrec, hseen]
        · rw [List.getD_cons_succ, List.getD_cons_succ, ihval, hseen]

theorem runSpec_cont {Ctx : Type} (E : Env Ctx) (a : ArgSpec Ctx) (r : Results) (wi : Nat) :
    ∃ r' calls, runSpec E a r wi =
      .cont r' (if positional (resolvedMode a E.ctx r) then 1 else 0) calls := by
  unfold runSpec
  cases hm : resolvedMode a E.ctx r
  case SEPARATE =>
    by_cases hw : (windowOf E a wi).isEmpty
    · simp only [hw, if_true]
      exact ⟨_, _, rfl⟩
    · simp only [hw, if_false]
      exact ⟨_, _, rfl⟩
  all_goals exact ⟨_, _, rfl⟩

theorem stepSlot_shape {Ctx : Type} (E : Env Ctx) (s : Slot Ctx) (r : Results) (wi : Nat) :
    (∃ sends, stepSlot E s r wi = .abort sends) ∨
    (∃ r' calls, stepSlot E s r wi = .cont r' (wiDelta E s r) calls) := by
  cases s with
  | probe f =>
    simp only [stepSlot]
    by_cases h1 : f E.ctx r ≠ JSVal.vnull ∧ f E.ctx r ≠ JSVal.vundef ∧
        f E.ctx r ≠ JSVal.vbool false
    · rw [if_pos h1]
      by_cases h2 : (f E.ctx r).truthy = true ∧ f E.ctx r ≠ JSVal.vbool true
      · rw [if_pos h2]; exact Or.inl ⟨_, rfl⟩
      · rw [if_neg h2]; exact Or.inl ⟨_, rfl⟩
    · rw [if_neg h1]
      exact Or.inr ⟨r, [], rfl⟩
  | group as' =>
    simp only [stepSlot, wiDelta, activeSpec]
    cases hf : as'.find? (fun a => a.allow E.ctx r) with
    | none => exact Or.inr ⟨r, [], rfl⟩
    | some a =>
      obtain ⟨r', calls, hr⟩ := runSpec_cont E a r wi
      exact Or.inr ⟨r', calls, hr⟩
  | single a =>
    simp only [stepSlot, wiDelta, activeSpec]
    by_cases ha : a.allow E.ctx r = true
    · rw [if_pos ha, if_pos ha]
      obtain ⟨r', calls, hr⟩ := runSpec_cont E a r wi
      exact Or.inr ⟨r', calls, hr⟩
    · rw [if_neg ha, if_neg ha]
      exact Or.inr ⟨r, [], rfl⟩

theorem truthy_ne_nullish (c : JSVal) (h : c.truthy = true) :
    c ≠ JSVal.vnull ∧ c ≠ JSVal.vundef ∧ c ≠ JSVal.vbool false := by
  cases c <;> simp_all [JSVal.truthy]

/-! The claims. -/

/-- Claim C1: at a cancellation-probe slot, a nothing/false return
advances to the next slot with no cursor change and no mapping entry;
a true return rejects with the cancellation sentinel and no feedback;
any other truthy return is dispatched to the output channel exactly
once and then rejects with the sentinel; in every abort case no
subsequent slot is evaluated (the outcome does not involve rest). -/
theorem probe_semantics {Ctx : Type} (E : Env Ctx) (f : Ctx → Results → JSVal)
    (rest : List (Slot Ctx)) (r : Results) (wi : Nat) :
    ((f E.ctx r = JSVal.vnull ∨ f E.ctx r = JSVal.vundef ∨ f E.ctx r = JSVal.vbool false) →
      processSlots E (Slot.probe f :: rest) r wi = processSlots E rest r wi) ∧
    (f E.ctx r = JSVal.vbool true →
      processSlots E (Slot.probe f :: rest) r wi = (Except.error (), [], [])) ∧
    ((f E.ctx r).truthy = true → f E.ctx r ≠ JSVal.vbool true →
      processSlots E (Slot.probe f :: rest) r wi = (Except.error (), [f E.ctx r], [])) := by
  refine ⟨?_, ?_, ?_⟩
  · intro h
    have hstep : stepSlot E (Slot.probe f) r wi = .cont r 0 [] := by
      simp only [stepSlot]
      rcases h with h | h | h <;> rw [h] <;> simp
    simp only [processSlots, hstep]
    simp
  · intro h
    have hstep : stepSlot E (Slot.probe f) r wi = .abort [] := by
      simp only [stepSlot]
      rw [h]
      simp [JSVal.truthy]
    simp only [processSlots, hstep]
  · intro h1 h2
    have hstep : stepSlot E (Slot.probe f) r wi = .abort [f E.ctx r] := by
      simp only [stepSlot]
      rw [if_pos (truthy_ne_nullish _ h1), if_pos ⟨h1, h2⟩]
    simp only [processSlots, hstep]

/-- Claim C9: a probe return that is neither null, undefined nor the
boolean false rejects with the cancellation sentinel, and when the
value is additionally falsy (such as the number 0, NaN, or the empty
string) the abort is silent: nothing is dispatched. -/
theorem probe_falsy_aborts {Ctx : Type} (E : Env Ctx) (f : Ctx → Results → JSVal)
    (rest : List (Slot Ctx)) (r : Results) (wi : Nat) :
    (f E.ctx r ≠ JSVal.vnull → f E.ctx r ≠ JSVal.vundef → f E.ctx r ≠ JSVal.vbool false →
      (processSlots E (Slot.probe f :: rest) r wi).1 = Except.error ()) ∧
    (f E.ctx r ≠ JSVal.vnull → f E.ctx r ≠ JSVal.vundef → f E.ctx r ≠ JSVal.vbool false →
      (f E.ctx r).truthy = false →
      processSlots E (Slot.probe f :: rest) r wi = (Except.error (), [], [])) := by
  constructor
  · intro h1 h2 h3
    by_cases h4 : (f E.ctx r).truthy = true ∧ f E.ctx r ≠ JSVal.vbool true
    · have hstep : stepSlot E (Slot.probe f) r wi = .abort [f E.ctx r] := by
        simp only [stepSlot]
        rw [if_pos ⟨h1, h2, h3⟩, if_pos h4]
      simp only [processSlots, hstep]
    · have hstep : stepSlot E (Slot.probe f) r wi = .abort [] := by
        simp only [stepSlot]
        rw [if_pos ⟨h1, h2, h3⟩, if_neg h4]
      simp only [processSlots, hstep]
  · intro h1 h2 h3 h4
    have hstep : stepSlot E (Slot.probe f) r wi = .abort [] := by
      simp only [stepSlot]
      rw [if_pos ⟨h1, h2, h3⟩, if_neg (by simp [h4])]
    simp only [processSlots, hstep]

/-- Claim C7: with an empty Argument Slot list, parse resolves to an
empty mapping with nothing sent and no resolver call, whatever the
content, and the tokenizer is never consulted: the outcome is the same
constant for every custom split function. -/
theorem parse_empty_args {Ctx : Type} (cmd : Command Ctx) (content : String) (ctx : Ctx)
    (h : cmd.args = []) :
    parse cmd content ctx = (Except.ok [], [], []) ∧
    ∀ f : String → Ctx → List String × Bool,
      parse ⟨cmd.args, SplitMode.FUNC f⟩ content ctx = (Except.ok [], [], []) := by
  constructor
  · simp [parse, h]
  · intro f
    simp [parse, h]

/-- Claim C8: the embedding of parse is state-free, so two calls with
identical content, context and command (deterministic resolver,
allow, default, mode and probe functions) agree definitionally: there
is no mutable state shared between the two calls. -/
theorem parse_deterministic_pair {Ctx : Type} (cmd : Command Ctx) (content : String)
    (ctx : Ctx) :
    (parseTwice cmd content ctx).1 = (parseTwice cmd content ctx).2 := rfl

/-- Claim C5: a FLAG spec scans the unfiltered pool for a trimmed,
lowercased token equal to a (lowercased) prefix value; the result is
inverse ? found : !found with inverse = not(await default), so default
false yields found and default true yields !found; the cursor does not
advance and the resolver is not called. -/
theorem flag_semantics {Ctx : Type} (E : Env Ctx) (a : ArgSpec Ctx) (r : Results) (wi : Nat)
    (hm : resolvedMode a E.ctx r = .FLAG) :
    runSpec E a r wi =
      .cont (setKey r a.id (Value.prim (JSVal.vbool
        (if !(a.dflt E.ctx r).truthy then flagFoundSpec a.pfxv E.words
          else !flagFoundSpec a.pfxv E.words)))) 0 [] ∧
    (a.dflt E.ctx r = JSVal.vbool false → runSpec E a r wi =
      .cont (setKey r a.id (Value.prim (JSVal.vbool (flagFoundSpec a.pfxv E.words)))) 0 []) ∧
    (a.dflt E.ctx r = JSVal.vbool true → runSpec E a r wi =
      .cont (setKey r a.id (Value.prim (JSVal.vbool (!flagFoundSpec a.pfxv E.words)))) 0 []) := by
  have hfound : flagScan (pfxList a.pfxv) E.words.reverse = flagFoundSpec a.pfxv E.words := by
    rw [flagScan_eq_any, any_reverse_eq]
    rfl
  have hmain : runSpec E a r wi =
      .cont (setKey r a.id (Value.prim (JSVal.vbool
        (if !(a.dflt E.ctx r).truthy then flagFoundSpec a.pfxv E.words
          else !flagFoundSpec a.pfxv E.words)))) 0 [] := by
    simp only [runSpec, hm, positional, hfound]
    simp
  refine ⟨hmain, ?_, ?_⟩
  · intro hd
    rw [hmain, hd]
    simp [JSVal.truthy]
  · intro hd
    rw [hmain, hd]
    simp [JSVal.truthy]

theorem getPrefixes_eq_descriptors {Ctx : Type} (slots : List (Slot Ctx)) :
    getPrefixes slots = descriptorsSpec slots := by
  induction slots with
  | nil => rfl
  | cons s rest ih =>
    cases s with
    | probe f =>
      simpa [getPrefixes, descriptorsSpec, flattenSpecs] using ih
    | single a =>
      simp only [getPrefixes, descriptorsSpec, flattenSpecs, List.flatMap_cons]
      rw [ih]
      rfl
    | group as' =>
      simp only [getPrefixes, descriptorsSpec, flattenSpecs, List.flatMap_append]
      rw [ih]
      rfl

/-- Claim C6: the Filtered Pool is the token pool with every token
removed whose trimmed, lowercased form starts with a non-flag
descriptor value or exactly equals a flag descriptor value, the
descriptors being one lowercase value per prefix value of every
(static) PREFIX-mode and FLAG-mode spec, alternative groups included;
and that is exactly the pool parse builds. -/
theorem filtered_pool_eq {Ctx : Type} (slots : List (Slot Ctx)) (ws : List String)
    (cmd : Command Ctx) (content : String) (ctx : Ctx) :
    ws.filter (keepWord (getPrefixes slots)) =
      ws.filter (fun w => !removedSpec (descriptorsSpec slots) w) ∧
    (envOf cmd content ctx).npw =
      ((splitText cmd.split content ctx).1).filter
        (fun w => !removedSpec (descriptorsSpec cmd.args) w) := by
  have hkw : ∀ (ds : List (String × Bool)), keepWord ds = fun w => !removedSpec ds w := by
    intro ds
    funext w
    simp only [keepWord, removedSpec]
    congr 1
    congr 1
    funext p
    cases hp : p.2 <;> simp [hp]
  constructor
  · rw [getPrefixes_eq_descriptors, hkw]
  · simp only [envOf]
    rw [getPrefixes_eq_descriptors, hkw]

/-- Claim C2 counterexample: the PREFIX matcher does not strip the
matched prefix substring when the configured value differs in case
from its lowercased image (replace uses the original-case value
against the lowercased token), and it does not trim the remainder
outside the isQuoted dequoting branch. -/
theorem pfx_claim_counterexample :
    pfxRaw (PrefixVal.single "P:") ["p:x"] false = "p:x" ∧
    pfxRaw (PrefixVal.single "p:") ["p: hello"] false = " hello" ∧
    ("p:x" : String) ≠ "x" ∧ (" hello" : String) ≠ "hello" := by
  refine ⟨?_, ?_, by decide, by decide⟩ <;> rfl

/-- Claim C2 (amended): the PREFIX matcher scans the unfiltered pool
from the last token toward the first, testing the trimmed lowercased
token against the prefix values (lowercased) in value-list order; on
the first hit the raw string fed to the Argument Resolver is the
lowercased token with the first occurrence of the original-case value
removed (nothing removed when that exact form does not occur), then
trimmed and de-quoted one layer only when isQuoted and the trimmed
remainder is fully double-quote delimited; when the hit token or the
winning value is empty, the trimmed lowercased token is fed unchanged;
with no hit, the empty string is fed. -/
theorem pfx_raw_amended (pv : PrefixVal) (ws : List String) (q : Bool) :
    pfxRaw pv ws q = pfxRawSpec pv ws q := by
  unfold pfxRaw pfxRawSpec pfxHit
  rw [pfxScan_eq_findSome]
  cases h : ws.reverse.findSome? (fun w =>
      (List.find? (fun p => jsStartsWith (jsToLower (jsTrim w)) (jsToLower p)) (pfxList pv)).map
        (fun p => (p, jsToLower (jsTrim w)))) with
  | none => rfl
  | some pw =>
    dsimp only
    by_cases h2 : pw.2 = "" ∨ pw.1 = ""
    · rw [if_neg (fun hc => h2.elim hc.1 hc.2), if_pos h2]
    · rw [if_pos (not_or.mp h2), if_neg h2]

/-- Claim C3: a SEPARATE spec with an empty window invokes the
Argument Resolver exactly once on the empty string; with a non-empty
window it invokes the Resolver exactly once per window token, in
window order, each call threaded sequentially (the k-th call sees the
mapping produced before it), and the stored result is the ordered
sequence of the per-token resolved values. -/
theorem separate_semantics {Ctx : Type} (E : Env Ctx) (a : ArgSpec Ctx) (r : Results)
    (wi : Nat) (hm : resolvedMode a E.ctx r = .SEPARATE) :
    (windowOf E a wi = [] →
      runSpec E a r wi =
        .cont (setKey r a.id (Value.prim (a.process "" E.ctx r))) 1 [⟨a.id, "", r⟩]) ∧
    (windowOf E a wi ≠ [] →
      ∃ vs r2 calls,
        runSpec E a r wi = .cont (setKey r2 a.id (Value.arr vs)) 1 calls ∧
        setKey r2 a.id (Value.arr vs) = setKey r a.id (Value.arr vs) ∧
        calls.length = (windowOf E a wi).length ∧
        vs.length = (windowOf E a wi).length ∧
        (∀ k, k < (windowOf E a wi).length →
          (calls.getD k dummyRec).argId = a.id ∧
          (calls.getD k dummyRec).raw = (windowOf E a wi).getD k "" ∧
          vs.getD k JSVal.vnull =
            a.process ((windowOf E a wi).getD k "") E.ctx
              (setKey r a.id (Value.arr (vs.take k))))) := by
  constructor
  · intro hw
    simp only [runSpec, hm, positional, hw]
    simp
  · intro hw
    have hne : (windowOf E a wi).isEmpty = false := by
      cases hwin : windowOf E a wi with
      | nil => exact absurd hwin hw
      | cons x xs => rfl
    obtain ⟨hlen, hclen, hset, hk⟩ := sepRun_char a E.ctx (windowOf E a wi) [] r
    refine ⟨(sepRun a E.ctx (windowOf E a wi) [] r).1,
      (sepRun a E.ctx (windowOf E a wi) [] r).2.1,
      (sepRun a E.ctx (windowOf E a wi) [] r).2.2, ?_, hset _, hclen, hlen, ?_⟩
    · simp only [runSpec, hm, positional, hne]
      simp
    · intro k hkw
      obtain ⟨hrec, hval⟩ := hk k hkw
      refine ⟨?_, ?_, ?_⟩
      · rw [hrec]
      · rw [hrec]
      · rw [hval]
        simp

/-- Claim C10: during a non-empty SEPARATE window, the mapping passed
to the k-th Argument Resolver call carries, under the spec's
identifier, exactly the already-resolved values of the earlier window
tokens (the empty sequence for the first call). -/
theorem separate_partial_results_visible {Ctx : Type} (E : Env Ctx) (a : ArgSpec Ctx)
    (r : Results) (wi : Nat) (hm : resolvedMode a E.ctx r = .SEPARATE)
    (hw : windowOf E a wi ≠ []) :
    ∃ vs calls r2,
      runSpec E a r wi = .cont (setKey r2 a.id (Value.arr vs)) 1 calls ∧
      calls.length = (windowOf E a wi).length ∧
      (∀ k, k < (windowOf E a wi).length →
        (calls.getD k dummyRec).seen = setKey r a.id (Value.arr (vs.take k)) ∧
        getKey ((calls.getD k dummyRec).seen) a.id = some (Value.arr (vs.take k))) := by
  have hne : (windowOf E a wi).isEmpty = false := by
    cases hwin : windowOf E a wi with
    | nil => exact absurd hwin hw
    | cons x xs => rfl
  obtain ⟨hlen, hclen, hset, hk⟩ := sepRun_char a E.ctx (windowOf E a wi) [] r
  refine ⟨(sepRun a E.ctx (windowOf E a wi) [] r).1,
    (sepRun a E.ctx (windowOf E a wi) [] r).2.2,
    (sepRun a E.ctx (windowOf E a wi) [] r).2.1, ?_, hclen, ?_⟩
  · simp only [runSpec, hm, positional, hne]
    simp
  · intro k hkw
    obtain ⟨hrec, hval⟩ := hk k hkw
    have hseen : ((sepRun a E.ctx (windowOf E a wi) [] r).2.2.getD k dummyRec).seen =
        setKey r a.id (Value.arr ((sepRun a E.ctx (windowOf E a wi) [] r).1.take k)) := by
      rw [hrec]
      simp
    exact ⟨hseen, by rw [hseen, getKey_setKey]⟩

/-- Claim C4: within one parse call the Positional Cursor starts at 0
and each slot changes it by wiDelta: 1 exactly when a participating
spec resolves to WORD, REST or SEPARATE, 0 for every other mode, for
skipped slots and for cancellation probes; it is never decremented. -/
theorem cursor_advance {Ctx : Type} (E : Env Ctx) (s : Slot Ctx) (rest : List (Slot Ctx))
    (r : Results) (wi : Nat) (cmd : Command Ctx) (content : String) (c0 : Ctx) :
    wiDelta E s r ≤ 1 ∧
    wi ≤ wi + wiDelta E s r ∧
    (wiDelta E s r = 1 ↔
      ∃ a, activeSpec E.ctx s r = some a ∧ positional (resolvedMode a E.ctx r) = true) ∧
    ((∃ sends, stepSlot E s r wi = .abort sends ∧
        processSlots E (s :: rest) r wi = (Except.error (), sends, [])) ∨
      (∃ r' calls, stepSlot E s r wi = .cont r' (wiDelta E s r) calls ∧
        processSlots E (s :: rest) r wi =
          ((processSlots E rest r' (wi + wiDelta E s r)).1,
            (processSlots E rest r' (wi + wiDelta E s r)).2.1,
            calls ++ (processSlots E rest r' (wi + wiDelta E s r)).2.2))) ∧
    (cmd.args.isEmpty = false →
      parse cmd content c0 = processSlots (envOf cmd content c0) cmd.args [] 0) := by
  refine ⟨?_, Nat.le_add_right wi _, ?_, ?_, ?_⟩
  · unfold wiDelta
    cases activeSpec E.ctx s r with
    | none => exact Nat.zero_le 1
    | some a =>
      by_cases hp : positional (resolvedMode a E.ctx r) = true
      · simp [hp]
      · simp [hp]
  · unfold wiDelta
    cases ha : activeSpec E.ctx s r with
    | none => simp
    | some a =>
      by_cases hp : positional (resolvedMode a E.ctx r) = true
      · simp [hp]
      · simp [hp]
  · rcases stepSlot_shape E s r wi with ⟨sends, hab⟩ | ⟨r', calls, hcont⟩
    · refine Or.inl ⟨sends, hab, ?_⟩
      simp only [processSlots, hab]
    · refine Or.inr ⟨r', calls, hcont, ?_⟩
      simp only [processSlots, hcont]
  · intro h
    simp [parse, h]

/-! Concrete instances for the witnesses. -/

def envW : Env Unit := ⟨(), "", [], [], false, false⟩

def probeAbortW : Unit → Results → JSVal := fun _ _ => JSVal.vstr "aborted"

def probeZeroW : Unit → Results → JSVal := fun _ _ => JSVal.vnum 0

def specSep : ArgSpec Unit :=
  ⟨"nums", .stat .SEPARATE, none, 2, .single "", fun _ _ => true,
    fun _ _ => .vbool false, fun s _ _ => .vstr s⟩

def envSep : Env Unit := ⟨(), "", [], ["1", "2"], false, false⟩

def specFlag : ArgSpec Unit :=
  ⟨"verbose", .stat .FLAG, none, 0, .single "--verbose", fun _ _ => true,
    fun _ _ => .vbool false, fun _ _ _ => .vnull⟩

def envFlag : Env Unit := ⟨(), "", ["--verbose"], [], false, false⟩

def cmdW : Command Unit := ⟨[Slot.single specSep], .PLAIN⟩

def cmdEmptyW : Command Unit := ⟨[], .PLAIN⟩

/-- Witness for C1: a probe returning the string "aborted" sends it
once and rejects with the sentinel. -/
theorem probe_semantics_witness :
    processSlots envW [Slot.probe probeAbortW] [] 0 =
      (Except.error (), [JSVal.vstr "aborted"], []) :=
  (probe_semantics envW probeAbortW [] [] 0).2.2 (by decide) (by decide)

/-- Witness for C9: a probe returning the number 0 aborts silently. -/
theorem probe_falsy_witness :
    processSlots envW [Slot.probe probeZeroW] [] 0 = (Except.error (), [], []) :=
  (probe_falsy_aborts envW probeZeroW [] [] 0).2 (by decide) (by decide) (by decide)
    (by decide)

/-- Witness for C7 at a concrete command with no argument slots. -/
theorem parse_empty_args_witness :
    parse cmdEmptyW "hello world" () = (Except.ok [], [], []) :=
  (parse_empty_args cmdEmptyW "hello world" () rfl).1

/-- Witness for C5: pool containing exactly the token of the flag,
default resolving to false: the flag resolves to found = true. -/
theorem flag_semantics_witness :
    runSpec envFlag specFlag [] 0 =
      .cont (setKey [] specFlag.id (Value.prim (JSVal.vbool
        (flagFoundSpec specFlag.pfxv envFlag.words)))) 0 [] ∧
    flagFoundSpec specFlag.pfxv envFlag.words = true :=
  ⟨(flag_semantics envFlag specFlag [] 0 rfl).2.1 rfl, by decide⟩

/-- Witness for C4: a concrete one-slot command, cursor starting at 0. -/
theorem cursor_advance_witness :
    parse cmdW "" () = processSlots (envOf cmdW "" ()) cmdW.args [] 0 :=
  (cursor_advance (envOf cmdW "" ()) (Slot.single specSep) [] [] 0 cmdW "" ()).2.2.2.2 rfl

/-- Witness for C3 on the concrete window with two tokens. -/
theorem separate_semantics_witness :
    ∃ vs r2 calls,
      runSpec envSep specSep [] 0 = .cont (setKey r2 specSep.id (Value.arr vs)) 1 calls ∧
      setKey r2 specSep.id (Value.arr vs) = setKey [] specSep.id (Value.arr vs) ∧
      calls.length = (windowOf envSep specSep 0).length ∧
      vs.length = (windowOf envSep specSep 0).length ∧
      (∀ k, k < (windowOf envSep specSep 0).length →
        (calls.getD k dummyRec).argId = specSep.id ∧
        (calls.getD k dummyRec).raw = (windowOf envSep specSep 0).getD k "" ∧
        vs.getD k JSVal.vnull =
          specSep.process ((windowOf envSep specSep 0).getD k "") envSep.ctx
            (setKey [] specSep.id (Value.arr (vs.take k)))) :=
  (separate_semantics envSep specSep [] 0 rfl).2 (by decide)

/-- Witness for C10 on the same concrete window. -/
theorem separate_partial_witness :
    ∃ vs calls r2,
      runSpec envSep specSep [] 0 = .cont (setKey r2 specSep.id (Value.arr vs)) 1 calls ∧
      calls.length = (windowOf envSep specSep 0).length ∧
      (∀ k, k < (windowOf envSep specSep 0).length →
        (calls.getD k dummyRec).seen = setKey [] specSep.id (Value.arr (vs.take k)) ∧
        getKey ((calls.getD k dummyRec).seen) specSep.id = some (Value.arr (vs.take k))) :=
  separate_partial_results_visible envSep specSep [] 0 rfl (by decide)

end Akairo
